import Mathlib

/-!
Shallow embedding of the `long_sim` Expected Consensus fork simulator (Go).

The repository carries two evolution stages of the simulator; following the
design notes, the later, `ParentWeight`-based stage (`src/unnamed/part_000`,
lines 136 onward) is embedded here.  Pure Go functions become Lean functions;
Go panics and nil-pointer dereferences become `Option`/`Except` failures
(`none` = crash); the struct fields keep their Go names.

Modelling conventions, each marked at its definition:
 * Go `map` values are association lists; map iteration order (unspecified in
   Go) is modelled as list order.
 * The shared `*rand.Rand` is re-seeded from `minTicket + minerID` before every
   draw in `generateTicket`, so each draw is a pure function of its seed; that
   function is the parameter `rng : Nat → Nat`.  `crypto/rand` draws in
   `makeGen` are the parameter `draws : Nat → Nat` (indexed by the id counter).
 * Go `float64` power values are modelled as exact fractions (`FPower`,
   numerator/denominator), and the `float64` comparison in `isWinningTicket`
   as the exact cross-multiplied integer comparison; the powers the program
   uses (`1.0 / totalMiners`) and the claims exercise are exact in both.
 * The `InHead`/`WasHead` marking done by `setHead` through shared pointers is
   omitted: those flags are only read by the rendering code, never by the core
   logic embedded here.
-/

namespace LongSim

/-- Go: `const bigOlNum = 100000`. -/
def bigOlNum : Nat := 100000

/-- The `Tipset` struct, parameterised by the block type so that `Block` can
nest it (Go ties the two structs by pointer; Lean needs a nested inductive). -/
structure TipsetG (α : Type) where
  Blocks : List α
  Name : String
  MinTicket : Nat
  WasHead : Bool
  Weight : Nat

/-- The `Block` struct of `part_000`.  `Parents = none` models the nil pointer
of the genesis-chain root.  `Nonce`, `Height`, `ParentWeight`, `Seed` are
non-negative in every execution, hence `Nat`; `Owner` is `-1` for genesis. -/
inductive Block where
  | mk (Nonce : Nat) (Parents : Option (TipsetG Block)) (Owner : Int) (Height : Nat)
      (Null : Bool) (ParentWeight : Nat) (Seed : Nat) (InHead : Bool) : Block

abbrev Tipset := TipsetG Block

def Block.Nonce : Block → Nat
  | .mk n _ _ _ _ _ _ _ => n

def Block.Parents : Block → Option Tipset
  | .mk _ p _ _ _ _ _ _ => p

def Block.Owner : Block → Int
  | .mk _ _ o _ _ _ _ _ => o

def Block.Height : Block → Nat
  | .mk _ _ _ h _ _ _ _ => h

def Block.Null : Block → Bool
  | .mk _ _ _ _ nl _ _ _ => nl

def Block.ParentWeight : Block → Nat
  | .mk _ _ _ _ _ pw _ _ => pw

def Block.Seed : Block → Nat
  | .mk _ _ _ _ _ _ s _ => s

def Block.InHead : Block → Bool
  | .mk _ _ _ _ _ _ _ ih => ih

/-- The comparison used by `sortBlocks` (Go: `blocks[i].Seed < blocks[j].Seed`). -/
def seedLE (a b : Block) : Prop := a.Seed ≤ b.Seed

instance : DecidableRel seedLE := fun a b => inferInstanceAs (Decidable (a.Seed ≤ b.Seed))

instance : IsTotal Block seedLE := ⟨fun a b => Nat.le_total a.Seed b.Seed⟩

instance : IsTrans Block seedLE := ⟨fun _ _ _ h1 h2 => Nat.le_trans h1 h2⟩

/-- Go `sortBlocks`: `sort.Slice` by ascending `Seed`.  Go's unstable sort
returns some nondecreasing-by-seed permutation; insertion sort is such a
permutation. -/
def sortBlocks (blocks : List Block) : List Block := blocks.insertionSort seedLE

/-- Go `stringifyBlocks`: the blocks' nonces in decimal, joined by `-`. -/
def stringifyBlocks (blocks : List Block) : String :=
  String.intercalate "-" (blocks.map (fun b => toString b.Nonce))

/-- The body of `NewTipset` after the sort: min-ticket scan starting from
`blocks[0].Seed`, and weight `blocks[0].ParentWeight` plus the member count
unless `blocks[0]` is null.  The `[]` branches are unreachable from
`NewTipset` (the sort of a nonempty list is nonempty). -/
def Tipset.ofSorted (blocks : List Block) : Tipset :=
  let minTicket := match blocks with
    | [] => 0
    | b0 :: _ => blocks.foldl (fun m blk => if blk.Seed < m then blk.Seed else m) b0.Seed
  let tsWeight := match blocks with
    | [] => 0
    | b0 :: _ => b0.ParentWeight + (if b0.Null then 0 else blocks.length)
  { Blocks := blocks, Name := stringifyBlocks blocks, MinTicket := minTicket,
    WasHead := false, Weight := tsWeight }

/-- `NewTipset` on a visibly nonempty argument, as used at every internal call
site (they all pass a cons cell). -/
def NewTipsetNE (b : Block) (rest : List Block) : Tipset :=
  Tipset.ofSorted (sortBlocks (b :: rest))

/-- Go `NewTipset`: panics (`none`) on the empty list, otherwise sorts the
blocks and fills in name, min ticket and weight.  No height or parent
consistency check appears in the source. -/
def NewTipset : List Block → Option Tipset
  | [] => none
  | b :: rest => some (NewTipsetNE b rest)

/-- Go `(ts *Tipset) getHeight`: panics (`none`) on an empty tipset, else the
first block's height. -/
def Tipset.getHeight? (ts : Tipset) : Option Nat :=
  match ts.Blocks with
  | [] => none
  | b :: _ => some b.Height

/-- Go `(ts *Tipset) getParents`: panics on an empty tipset; the nil parent
pointer of the genesis root also maps to `none` (dereferencing it crashes at
the next use, which the `Option` threading models). -/
def Tipset.getParents? (ts : Tipset) : Option Tipset :=
  match ts.Blocks with
  | [] => none
  | b :: _ => b.Parents

theorem Block.sizeOf_Parents_lt (b : Block) : sizeOf b.Parents < sizeOf b := by
  cases b with
  | mk n p o h nl pw s ih => simp [Block.Parents]; omega

theorem TipsetG.sizeOf_Blocks_lt (ts : Tipset) : sizeOf ts.Blocks < sizeOf ts := by
  cases ts with
  | mk bs nm mt wh w => simp; omega

/-- Go `(bl *Block) liveParents`, written on the parent pointer: walk back
while the (single) block of the parent tipset is null.  `none` models the
nil dereference / index panic on a malformed chain. -/
def Block.liveParentsGo : Option Tipset → Option Tipset
  | none => none
  | some parents =>
    match h : parents.Blocks with
    | [] => none
    | b :: _ =>
      if b.Null then Block.liveParentsGo b.Parents else some parents
termination_by p => sizeOf p
decreasing_by
  simp_wf
  have h1 : sizeOf b.Parents < sizeOf b := Block.sizeOf_Parents_lt b
  have h2 : sizeOf b < sizeOf parents.Blocks := by
    rw [h]; simp; omega
  have h3 : sizeOf parents.Blocks < sizeOf parents := TipsetG.sizeOf_Blocks_lt parents
  omega

/-- `blk1.Parents.Name` as an `Option` (the Go code dereferences the parent
pointer inside `allTipsets`; in the simulator every block compared there has a
parent, the lone root never sharing a round with a second block). -/
def Block.parentName? (b : Block) : Option String := b.Parents.map (fun p => p.Name)

/-- The grouping test of `allTipsets` in `part_000`:
`blk1.Height == blk2.Height && blk1.Parents.Name == blk2.Parents.Name`. -/
def sameTipsetGroup (blk1 blk2 : Block) : Bool :=
  blk1.Height == blk2.Height && blk1.parentName? == blk2.parentName?

/-- Go `allTipsets` (`part_000`): for the i-th block it collects that block
together with every LATER block of the same (height, parent-name) group and
wraps the result in a tipset — one tipset per input block. -/
def allTipsets : List Block → List Tipset
  | [] => []
  | blk1 :: rest =>
    NewTipsetNE blk1 (rest.filter (fun blk2 => sameTipsetGroup blk1 blk2)) :: allTipsets rest

/-- The loop of `forksFromTipset`: for every index i the suffix
`ts.Blocks[i..]` made into a tipset. -/
def forksAux : List Block → List Tipset
  | [] => []
  | b :: rest => NewTipsetNE b rest :: forksAux rest

/-- Go `forksFromTipset`. -/
def forksFromTipset (ts : Tipset) : List Tipset := forksAux ts.Blocks

/-- One comparison step of `setHead`: strictly greater weight wins, equal
weight prefers the strictly smaller min ticket. -/
def headStep (cand ts : Tipset) : Tipset :=
  if ts.Weight > cand.Weight then ts
  else if ts.Weight == cand.Weight then
    if ts.MinTicket < cand.MinTicket then ts
    else cand
  else cand

/-- The candidate-selection loop of `(ct *chainTracker) setHead`: fold the
comparison over `allTipsets blocks`, starting from the current head. -/
def setHeadCandidate (head : Tipset) (blocks : List Block) : Tipset :=
  (allTipsets blocks).foldl headStep head

/-- Association-list lookup (Go map read). -/
def mapGet {κ β : Type} [DecidableEq κ] : List (κ × β) → κ → Option β
  | [], _ => none
  | (k0, v) :: rest, k => if k0 = k then some v else mapGet rest k

/-- Association-list insert-or-overwrite (Go `m[k] = v`). -/
def mapInsert {κ β : Type} [DecidableEq κ] : List (κ × β) → κ → β → List (κ × β)
  | [], k, v => [(k, v)]
  | (k0, v0) :: rest, k, v =>
    if k0 = k then (k, v) :: rest else (k0, v0) :: mapInsert rest k v

/-- Association-list delete (Go `delete(m, k)`); with unique keys this removes
the key entirely, as Go does. -/
def mapDelete {κ β : Type} [DecidableEq κ] : List (κ × β) → κ → List (κ × β)
  | [], _ => []
  | (k0, v0) :: rest, k =>
    if k0 = k then rest else (k0, v0) :: mapDelete rest k

/-- A miner power value, the exact fraction `num / den` standing in for the
Go `float64` (the program only ever uses `1.0 / totalMiners`). -/
structure FPower where
  num : Nat
  den : Nat
deriving DecidableEq

/-- The `RationalMiner` struct.  The shared `Rand` field is dropped: it is
re-seeded before every draw (see `generateTicket`), so the draws are the pure
parameter `rng` instead. -/
structure RationalMiner where
  Power : FPower
  PrivateForks : List (String × Tipset)
  ID : Nat
  TotalMiners : Nat

/-- Go `generateTicket` (`part_000`): re-seed the generator with
`minTicket + uint64(m.ID)` (uint64 wrap-around) and draw once from
`[0, bigOlNum)`.  `rng s` stands for the first `Int63n(bigOlNum)` output of a
Go generator seeded with `s`. -/
def generateTicket (rng : Nat → Nat) (id : Nat) (minTicket : Nat) : Nat :=
  rng ((minTicket + id) % 2 ^ 64)

/-- Go `isWinningTicket` (`part_000`): `float64(ticket) < float64(bigOlNum) * power`,
the comparison taken exactly (cross-multiplied by the power's denominator). -/
def isWinningTicket (ticket : Nat) (power : FPower) : Bool :=
  ticket * power.den < bigOlNum * power.num

/-- The loop of `lookbackTipset`: walk `n` parent links, crashing (`none`) on
an empty tipset or a nil parent pointer along the way. -/
def lookbackAux : Nat → Tipset → Option Tipset
  | 0, ts => some ts
  | n + 1, ts =>
    match ts.getParents? with
    | none => none
    | some p => lookbackAux n p

/-- Go `lookbackTipset`: walk back `lbp - 1` parent links (`lbp = 1` returns
the tipset itself; Go's `lbp - 1` on `lbp = 0` gives a negative bound, i.e.
zero iterations, matching `Nat` subtraction). -/
def lookbackTipset (tipset : Tipset) (lbp : Nat) : Option Tipset :=
  lookbackAux (lbp - 1) tipset

/-- Go `(m *RationalMiner) generateBlock`: draw the chain ticket from the
immediate parents' min ticket and the election proof from the lookback
tipset's min ticket; height is parent height + 1; `ParentWeight` is the weight
of the nearest live ancestor tipset.  Returns the block and the advanced
unique-id counter; `none` models any panic on a malformed chain. -/
def generateBlock (m : RationalMiner) (rng : Nat → Nat) (parents : Tipset) (lbp : Nat)
    (counter : Nat) : Option (Block × Nat) := do
  let lotteryTs ← lookbackTipset parents lbp
  let lastTs ← lookbackTipset parents 1
  let b0 ← parents.Blocks.head?
  let liveParents ← if b0.Null then Block.liveParentsGo b0.Parents else pure parents
  let t := generateTicket rng m.ID lastTs.MinTicket
  let h ← parents.getHeight?
  let electionProof := generateTicket rng m.ID lotteryTs.MinTicket
  let nl := !(isWinningTicket electionProof m.Power)
  return (Block.mk counter (some parents) (m.ID : Int) (h + 1) nl liveParents.Weight t false,
    counter + 1)

/-- Go `ConsiderAllForks`: merge every offered fork into the private-fork map,
keyed by tipset name (insert-or-overwrite). -/
def ConsiderAllForks (pf : List (String × Tipset)) (atsforks : List (List Tipset)) :
    List (String × Tipset) :=
  atsforks.foldl (fun acc forks => forks.foldl (fun acc2 ts => mapInsert acc2 ts.Name ts) acc) pf

/-- The accumulator of `Mine`'s candidate loop: collected null candidates, the
best weight so far, the best (winning) block so far, the id counter, and the
chain tracker's global block table. -/
structure MineAcc where
  nullBlocks : List Block
  maxWeight : Nat
  bestBlock : Option Block
  counter : Nat
  allBlocks : List (Nat × Block)

/-- The candidate loop of `Mine` over the private-fork entries (Go iterates
the map in unspecified order; the entry list order stands in for it).  A
non-null candidate of strictly greater `ParentWeight` becomes the best block;
a null candidate found before any best block is recorded and entered into the
global block table. -/
def mineLoop (m : RationalMiner) (rng : Nat → Nat) (lbp : Nat) :
    List (String × Tipset) → MineAcc → Option MineAcc
  | [], acc => some acc
  | (_, ts) :: rest, acc => do
    let (blk, c') ← generateBlock m rng ts lbp acc.counter
    if !blk.Null && blk.ParentWeight > acc.maxWeight then
      mineLoop m rng lbp rest
        { acc with bestBlock := some blk, maxWeight := blk.ParentWeight, counter := c' }
    else if blk.Null && acc.bestBlock.isNone then
      mineLoop m rng lbp rest
        { acc with
          nullBlocks := acc.nullBlocks ++ [blk], counter := c',
          allBlocks := mapInsert acc.allBlocks blk.Nonce blk }
    else
      mineLoop m rng lbp rest { acc with counter := c' }

/-- One iteration of the null-chain extension at the end of `Mine`:
`delete(m.PrivateForks, nblk.Parents.Name)` followed by
`m.PrivateForks[nullTipset.Name] = nullTipset` for the null block's own
single-block tipset.  (A null block always has parents, so the `getD ""`
default is never taken in a run.) -/
def nullStep (acc : List (String × Tipset)) (nblk : Block) : List (String × Tipset) :=
  let nullTipset := NewTipsetNE nblk []
  mapInsert (mapDelete acc (nblk.parentName?.getD "")) nullTipset.Name nullTipset

/-- The null-chain extension loop at the end of `Mine`, over all recorded
null blocks. -/
def nullTipsetUpdate (pf : List (String × Tipset)) (nullBlocks : List Block) :
    List (String × Tipset) :=
  nullBlocks.foldl nullStep pf

/-- The result of one `Mine` call: the published block (if any), the updated
miner, the advanced id counter, and the updated global block table. -/
structure MineResult where
  best : Option Block
  miner : RationalMiner
  counter : Nat
  ctAllBlocks : List (Nat × Block)

/-- Go `(m *RationalMiner) Mine` (`part_000`): merge the offered forks, run
the candidate loop, then either wipe the private forks (a winner was found)
or chain every null candidate forward. -/
def Mine (m : RationalMiner) (rng : Nat → Nat) (lbp : Nat)
    (atsforks : List (List Tipset)) (counter : Nat) (ctAllBlocks : List (Nat × Block)) :
    Option MineResult := do
  let pf1 := ConsiderAllForks m.PrivateForks atsforks
  let acc ← mineLoop m rng lbp pf1 ⟨[], 0, none, counter, ctAllBlocks⟩
  match acc.bestBlock with
  | some b =>
    return ⟨some b, { m with PrivateForks := [] }, acc.counter, acc.allBlocks⟩
  | none =>
    return ⟨none, { m with PrivateForks := nullTipsetUpdate pf1 acc.nullBlocks },
      acc.counter, acc.allBlocks⟩

/-- The loop of `makeGen`: build `lbp` chained single-block genesis tipsets,
all at height 0, owner `-1`, non-null, `ParentWeight` 0, each seeded by a
fresh `crypto/rand` draw (`draws`, indexed by the id counter). -/
def makeGenLoop (draws : Nat → Nat) :
    Nat → Option Tipset → Nat → Option Tipset × Nat
  | 0, gen, c => (gen, c)
  | n + 1, gen, c =>
    let blk := Block.mk c gen (-1) 0 false 0 (draws c) true
    makeGenLoop draws n (some (NewTipsetNE blk [])) (c + 1)

/-- Go `makeGen`: returns the innermost genesis block (`gen.Blocks[0]`);
`none` models the nil dereference when `lbp = 0`. -/
def makeGen (lbp : Nat) (draws : Nat → Nat) (c : Nat) : Option Block × Nat :=
  let (gen, c') := makeGenLoop draws lbp none c
  match gen with
  | none => (none, c')
  | some ts => (ts.Blocks.head?, c')

/-- The `chainTracker` struct (the `miners` back-pointer, used only for JSON
output, is dropped). -/
structure ChainTracker where
  liveBlocksByHeight : List (Nat × List Block)
  allBlocks : List (Nat × Block)
  maxHeight : Int
  head : Tipset

/-- Go `(ct *chainTracker) setHead`: replace the head by the fold's candidate.
The Go `WasHead`/`InHead` marking on a change is omitted (those flags are only
read by the rendering code). -/
def ChainTracker.setHead (ct : ChainTracker) (blocks : List Block) : ChainTracker :=
  { ct with head := setHeadCandidate ct.head blocks }

/-- One trial's full state: the id counter, the chain tracker, the miners and
the blocks published in the previous round. -/
structure SimState where
  counter : Nat
  ct : ChainTracker
  miners : List RationalMiner
  blocks : List Block

/-- The round invariant asserted by `runSim`: all input blocks share the first
block's height (vacuously true for an empty round). -/
def heightConsistent : List Block → Bool
  | [] => true
  | b :: rest => rest.all (fun blk => blk.Height == b.Height)

/-- The miner loop of a round: each miner mines in turn, threading the id
counter and the global block table; winning blocks are collected in miner
order. -/
def mineAll (rng : Nat → Nat) (lbp : Nat) (atsforks : List (List Tipset)) :
    List RationalMiner → Nat → List (Nat × Block) →
    Option (List RationalMiner × List Block × Nat × List (Nat × Block))
  | [], c, ctAll => some ([], [], c, ctAll)
  | m :: ms, c, ctAll => do
    let r ← Mine m rng lbp atsforks c ctAll
    let (ms', newBlocks, c', ctAll') ← mineAll rng lbp atsforks ms r.counter r.ctAllBlocks
    let nbs := match r.best with
      | some b => b :: newBlocks
      | none => newBlocks
    return (r.miner :: ms', nbs, c', ctAll')

/-- One iteration of `runSim`'s round loop: update the head, cache the round's
blocks, check the common-height invariant (panic = `none`), enumerate tipsets
and forks, and let every miner mine. -/
def runRound (lbp : Nat) (rng : Nat → Nat) (st : SimState) : Option SimState := do
  let ct1 := st.ct.setHead st.blocks
  let ctAll1 := st.blocks.foldl (fun mp b => mapInsert mp b.Nonce b) ct1.allBlocks
  let lbh1 := match st.blocks with
    | [] => ct1.liveBlocksByHeight
    | b :: _ => mapInsert ct1.liveBlocksByHeight b.Height st.blocks
  if heightConsistent st.blocks then
    let ats := allTipsets st.blocks
    let atsforks := ats.map forksFromTipset
    let (miners', newBlocks, c', ctAll') ← mineAll rng lbp atsforks st.miners st.counter ctAll1
    return { counter := c',
             ct := { ct1 with allBlocks := ctAll', liveBlocksByHeight := lbh1 },
             miners := miners', blocks := newBlocks }
  else none

/-- `roundNum` iterations of the round loop. -/
def runSimLoop (lbp : Nat) (rng : Nat → Nat) : Nat → SimState → Option SimState
  | 0, st => some st
  | n + 1, st => do
    let st' ← runRound lbp rng st
    runSimLoop lbp rng n st'

/-- Go `runSim`.  `trialSeed` is the per-trial `seed := randInt(1 << 62)`:
Go builds `r := rand.New(rand.NewSource(seed))` from it, but every use of `r`
(inside `generateTicket`) re-seeds it before drawing, so the argument never
reaches any draw — it is kept to state claims about it.  `draws` are the
`crypto/rand` genesis draws; `rng` is the ticket function. -/
def runSim (totalMiners roundNum lbp : Nat) (draws rng : Nat → Nat) (trialSeed : Nat) :
    Option SimState :=
  let (genOpt, c1) := makeGen lbp draws 0
  match genOpt with
  | none => none
  | some gen =>
    let head0 := NewTipsetNE gen []
    let miners0 := (List.range totalMiners).map (fun i =>
      { Power := ⟨1, totalMiners⟩, PrivateForks := [], ID := i,
        TotalMiners := totalMiners : RationalMiner })
    let st0 : SimState :=
      { counter := c1,
        ct := { liveBlocksByHeight := [], allBlocks := [], maxHeight := -1, head := head0 },
        miners := miners0, blocks := [gen] }
    match runSimLoop lbp rng roundNum st0 with
    | none => none
    | some st => some { st with ct := { st.ct with maxHeight := (roundNum : Int) - 1 } }

/-- Go `main` up to and including the trial loop: the only pre-run
configuration check is `trials <= 0` (a panic, `Except.error`); the round
count is passed through unchecked (a negative `roundNum` simply runs zero
rounds, like Go's `for round := 0; round < roundNum`). -/
def mainModel (trials roundNum : Int) (totalMiners lbp : Nat) (draws rng : Nat → Nat)
    (trialSeeds : Nat → Nat) : Except String (List (Option SimState)) :=
  if trials ≤ 0 then Except.error "None of your assumptions have been proven wrong"
  else Except.ok ((List.range trials.toNat).map (fun n =>
    runSim totalMiners roundNum.toNat lbp draws rng (trialSeeds n)))

/-- The strict fork-choice preference of `setHead`: strictly greater weight,
or equal weight and strictly smaller min ticket. -/
def headBetter (a b : Tipset) : Prop :=
  b.Weight < a.Weight ∨ (a.Weight = b.Weight ∧ a.MinTicket < b.MinTicket)

/-- A concrete genesis-style block used by the concrete instances below. -/
def genBlockA : Block := Block.mk 0 none (-1) 0 false 0 7 true

/-- Its single-block tipset (name `0`, height 0, weight 1). -/
def parentTsA : Tipset := NewTipsetNE genBlockA []

/-- Two concrete same-height, same-parent blocks (one tipset group). -/
def blockC1 : Block := Block.mk 1 (some parentTsA) 0 1 false 1 3 false

def blockC2 : Block := Block.mk 2 (some parentTsA) 1 1 false 1 9 false

/-- A concrete null block and a concrete live block sharing height & parent. -/
def nullBlockB : Block := Block.mk 3 (some parentTsA) 0 1 true 5 1 false

def liveBlockB : Block := Block.mk 4 (some parentTsA) 1 1 false 5 2 false

/-- The genesis chain built by `makeGen`'s loop: `genChainTipset draws c0 n`
is the tipset value after `n` iterations starting from counter `c0`. -/
def genChainTipset (draws : Nat → Nat) (c0 : Nat) : Nat → Option Tipset
  | 0 => none
  | n + 1 =>
    some (NewTipsetNE (Block.mk (c0 + n) (genChainTipset draws c0 n) (-1) 0 false 0
      (draws (c0 + n)) true) [])

/-- A miner of power 0 holding one genesis fork, for the C5 witness. -/
def c5Miner : RationalMiner := ⟨⟨0, 1⟩, [(parentTsA.Name, parentTsA)], 0, 1⟩

/-- The null candidate that miner generates at counter 5. -/
def c5NullBlk : Block := Block.mk 5 (some parentTsA) 0 1 true 1 0 false

/-- The loop accumulator of that `Mine` call. -/
def c5Acc : MineAcc := ⟨[c5NullBlk], 0, none, 6, [(5, c5NullBlk)]⟩

/-- The result of that `Mine` call: no winner, the genesis fork replaced by
the null block's single-block tipset. -/
def c5Res : MineResult :=
  ⟨none, ⟨⟨0, 1⟩, [((NewTipsetNE c5NullBlk []).Name, NewTipsetNE c5NullBlk [])], 0, 1⟩,
    6, [(5, c5NullBlk)]⟩

/-! ## Theorems -/

/-- C8 counterexample: `NewTipset` does NOT fail on a height-inconsistent block
set — two blocks of heights 3 and 9 (same parent) are silently coerced into a
tipset, refuting "NewTipset succeeds only on height- and parent-consistent
block sets". -/
theorem newTipset_accepts_inconsistent_blocks :
    (Block.mk 1 (some parentTsA) 0 3 false 0 5 false).Height ≠
      (Block.mk 2 (some parentTsA) 1 9 false 0 6 false).Height ∧
    (NewTipset [Block.mk 1 (some parentTsA) 0 3 false 0 5 false,
      Block.mk 2 (some parentTsA) 1 9 false 0 6 false]).isSome = true := by
  exact ⟨by decide, rfl⟩

/-- C8 (amended): `NewTipset` fails exactly on the empty block set; on any
nonempty set — consistent or not — it succeeds and returns a tipset holding
precisely the given blocks (no consistency check, no coercion of membership). -/
theorem newTipset_fails_iff_empty :
    (∀ blocks : List Block, NewTipset blocks = none ↔ blocks = []) ∧
    (∀ (b : Block) (rest : List Block),
      ∃ ts, NewTipset (b :: rest) = some ts ∧ ts.Blocks.Perm (b :: rest)) := by
  constructor
  · intro blocks
    cases blocks <;> simp [NewTipset]
  · intro b rest
    exact ⟨NewTipsetNE b rest, rfl, List.perm_insertionSort seedLE (b :: rest)⟩

/-- C10 counterexample: with `trials = 1` and `roundCount = 0 ≤ 0` the program
does not abort — `main` only validates the trial count, so the run proceeds
and the single trial completes. -/
theorem mainModel_accepts_nonpositive_rounds :
    mainModel 1 0 1 1 (fun _ => 0) (fun _ => 0) (fun _ => 0) =
      Except.ok [runSim 1 0 1 (fun _ => 0) (fun _ => 0) 0] ∧
    (runSim 1 0 1 (fun _ => 0) (fun _ => 0) 0).isSome = true := by
  exact ⟨rfl, rfl⟩

/-- C10 (amended): the only fatal pre-run configuration check is
`trials <= 0`; the round count is never validated (a non-positive round count
runs the trials with zero rounds). -/
theorem mainModel_rejects_only_trials (trials roundNum : Int) (tm lbp : Nat)
    (draws rng trialSeeds : Nat → Nat) :
    (∃ e, mainModel trials roundNum tm lbp draws rng trialSeeds = Except.error e) ↔
      trials ≤ 0 := by
  unfold mainModel
  split <;> simp_all

/-- C4 counterexample: `NewTipset` only tests `blocks[0].Null`, so a mixed
tipset (one null, one live member, built by `NewTipset`) has weight
`blocks[0].ParentWeight` (= 5), not `blocks[0].ParentWeight + member count`
(= 7) as the "all-null else count" formula demands, and it is a tipset with a
null member and two members, refuting the exactly-one-member part as a
property of `NewTipset`. -/
theorem newTipset_weight_mixed_cex :
    ((NewTipsetNE nullBlockB [liveBlockB]).Blocks.any (fun b => b.Null)) = true ∧
    (NewTipsetNE nullBlockB [liveBlockB]).Blocks.length = 2 ∧
    (NewTipsetNE nullBlockB [liveBlockB]).Weight ≠
      ((NewTipsetNE nullBlockB [liveBlockB]).Blocks.headD nullBlockB).ParentWeight +
        (if (NewTipsetNE nullBlockB [liveBlockB]).Blocks.all (fun b => b.Null) then 0
          else (NewTipsetNE nullBlockB [liveBlockB]).Blocks.length) := by
  decide

/-- C1 counterexample: two blocks of one (height, parent) group — the grouping
test holds between them — yet `allTipsets` returns TWO tipsets for this single
group (of sizes 2 and 1), not exactly one per distinct group, and the second
returned tipset does not contain all blocks of its group. -/
theorem allTipsets_not_one_per_group :
    sameTipsetGroup blockC1 blockC2 = true ∧
    (allTipsets [blockC1, blockC2]).map (fun ts => ts.Blocks.length) = [2, 1] := by
  decide

theorem sortBlocks_perm (l : List Block) : (sortBlocks l).Perm l :=
  List.perm_insertionSort seedLE l

theorem sortBlocks_cons_ne_nil (b : Block) (rest : List Block) :
    sortBlocks (b :: rest) ≠ [] := by
  intro hnil
  have hlen := (sortBlocks_perm (b :: rest)).length_eq
  rw [hnil] at hlen
  simp at hlen

theorem ofSorted_blocks (L : List Block) : (Tipset.ofSorted L).Blocks = L := rfl

theorem ofSorted_weight (L : List Block) (b0 : Block) (L' : List Block) (h : L = b0 :: L') :
    (Tipset.ofSorted L).Weight = b0.ParentWeight + (if b0.Null then 0 else L.length) := by
  subst h; rfl

theorem newTipsetNE_blocks_perm (b : Block) (rest : List Block) :
    (NewTipsetNE b rest).Blocks.Perm (b :: rest) :=
  sortBlocks_perm (b :: rest)

theorem allNull_eq_head (b : Block) (rest : List Block)
    (hhom : ∀ x ∈ rest, x.Null = b.Null) :
    (b :: rest).all (fun x => x.Null) = b.Null := by
  cases hb : b.Null
  · simp [hb]
  · simp [hb]
    intro x hx
    rw [hhom x hx, hb]

/-- C4 (amended): on a block set whose members agree on the null flag — the
only shape the simulator ever passes to `NewTipset` — the constructed tipset's
weight is `blocks[0].ParentWeight` plus 0 if all members are null and plus the
member count otherwise, and the tipset holds exactly the given members.  (The
exactly-one-member property of null tipsets is maintained by `NewTipset`'s
callers, not by `NewTipset` itself — see the counterexample.) -/
theorem newTipset_weight_head_or_count (b : Block) (rest : List Block)
    (hhom : ∀ x ∈ rest, x.Null = b.Null) :
    (NewTipsetNE b rest).Weight =
      ((NewTipsetNE b rest).Blocks.headD b).ParentWeight +
        (if (b :: rest).all (fun x => x.Null) then 0 else (b :: rest).length) ∧
    (NewTipsetNE b rest).Blocks.length = (b :: rest).length := by
  obtain ⟨b0, L', hL⟩ := List.exists_cons_of_ne_nil (sortBlocks_cons_ne_nil b rest)
  have hperm := sortBlocks_perm (b :: rest)
  have hlen : (sortBlocks (b :: rest)).length = (b :: rest).length := hperm.length_eq
  have hmem : b0 ∈ (b :: rest) := hperm.subset (by rw [hL]; exact List.mem_cons_self b0 L')
  have hb0 : b0.Null = b.Null := by
    rcases List.mem_cons.mp hmem with h | h
    · rw [h]
    · exact hhom b0 h
  have hblocks : (NewTipsetNE b rest).Blocks = sortBlocks (b :: rest) := rfl
  constructor
  · have hw : (NewTipsetNE b rest).Weight =
        b0.ParentWeight + (if b0.Null then 0 else (sortBlocks (b :: rest)).length) :=
      ofSorted_weight (sortBlocks (b :: rest)) b0 L' hL
    rw [hw, hlen, hblocks, hL]
    simp only [List.headD_cons]
    rw [hb0, allNull_eq_head b rest hhom]
  · rw [hblocks]
    exact hlen

/-- C4 amended witness at a concrete homogeneous block set. -/
theorem newTipset_weight_head_or_count_witness :
    (NewTipsetNE blockC1 [blockC2]).Weight =
      ((NewTipsetNE blockC1 [blockC2]).Blocks.headD blockC1).ParentWeight +
        (if ([blockC1, blockC2]).all (fun x => x.Null) then 0
          else ([blockC1, blockC2]).length) ∧
    (NewTipsetNE blockC1 [blockC2]).Blocks.length = ([blockC1, blockC2]).length :=
  newTipset_weight_head_or_count blockC1 [blockC2] (by decide)

theorem sameTipsetGroup_refl (b : Block) : sameTipsetGroup b b = true := by
  simp [sameTipsetGroup]

theorem allTipsets_length (blocks : List Block) :
    (allTipsets blocks).length = blocks.length := by
  induction blocks with
  | nil => rfl
  | cons b rest ih => simp [allTipsets, ih]

theorem allTipsets_groups : ∀ (blocks : List Block) (i : Nat) (b : Block),
    blocks[i]? = some b →
    ∃ ts, (allTipsets blocks)[i]? = some ts ∧
      ts.Blocks.Perm ((blocks.drop i).filter (fun b2 => sameTipsetGroup b b2)) := by
  intro blocks
  induction blocks with
  | nil =>
    intro i b h
    simp at h
  | cons x rest ih =>
    intro i b h
    cases i with
    | zero =>
      simp only [List.getElem?_cons_zero, Option.some_inj] at h
      subst h
      refine ⟨NewTipsetNE x (rest.filter (fun b2 => sameTipsetGroup x b2)),
        by simp [allTipsets], ?_⟩
      have h1 := newTipsetNE_blocks_perm x (rest.filter (fun b2 => sameTipsetGroup x b2))
      simpa [List.filter_cons, sameTipsetGroup_refl] using h1
    | succ n =>
      simp only [List.getElem?_cons_succ] at h
      obtain ⟨ts, hts, hperm⟩ := ih n b h
      exact ⟨ts, by simpa [allTipsets] using hts, by simpa using hperm⟩

/-- C1 (amended): `allTipsets` of `part_000` returns one tipset per input
block (not one per distinct group): the i-th returned tipset holds the i-th
block together with exactly the LATER input blocks of its (height, parent)
group.  In particular only the tipset returned for the first-listed block of
each group holds the whole group. -/
theorem allTipsets_one_per_block (blocks : List Block) :
    (allTipsets blocks).length = blocks.length ∧
    ∀ (i : Nat) (b : Block), blocks[i]? = some b →
      ∃ ts, (allTipsets blocks)[i]? = some ts ∧
        ts.Blocks.Perm ((blocks.drop i).filter (fun b2 => sameTipsetGroup b b2)) :=
  ⟨allTipsets_length blocks, fun i b h => allTipsets_groups blocks i b h⟩

/-- C1 amended witness at the concrete two-block group. -/
theorem allTipsets_one_per_block_witness :
    (allTipsets [blockC1, blockC2]).length = 2 ∧
    ∃ ts, (allTipsets [blockC1, blockC2])[0]? = some ts ∧
      ts.Blocks.Perm ((([blockC1, blockC2]).drop 0).filter
        (fun b2 => sameTipsetGroup blockC1 b2)) :=
  ⟨(allTipsets_one_per_block [blockC1, blockC2]).1,
    (allTipsets_one_per_block [blockC1, blockC2]).2 0 blockC1 (by rfl)⟩

theorem forksAux_spec : ∀ (l : List Block), l.Sorted seedLE →
    (forksAux l).length = l.length ∧
    ∀ i, i < l.length → ∃ f, (forksAux l)[i]? = some f ∧ f.Blocks = l.drop i := by
  intro l
  induction l with
  | nil =>
    intro _
    exact ⟨rfl, fun i hi => absurd hi (by simp)⟩
  | cons b rest ih =>
    intro hs
    obtain ⟨hlen, hidx⟩ := ih hs.of_cons
    constructor
    · simp [forksAux, hlen]
    · intro i hi
      cases i with
      | zero =>
        refine ⟨NewTipsetNE b rest, by simp [forksAux], ?_⟩
        show (Tipset.ofSorted (sortBlocks (b :: rest))).Blocks = b :: rest
        rw [ofSorted_blocks]
        exact List.Sorted.insertionSort_eq hs
      | succ n =>
        obtain ⟨f, hf, hb⟩ := hidx n (by simpa using hi)
        exact ⟨f, by simpa [forksAux] using hf, hb⟩

/-- C3: for a tipset whose blocks are sorted by ascending seed (as every
tipset built by `NewTipset` is), `forksFromTipset` returns exactly n forks,
the i-th being the suffix `blocks[i..]` — ordered by ascending seed, with
`n - i` blocks — from the whole tipset down to the largest-ticket block
alone. -/
theorem forksFromTipset_suffixes (ts : Tipset) (hs : ts.Blocks.Sorted seedLE) :
    (forksFromTipset ts).length = ts.Blocks.length ∧
    ∀ i, i < ts.Blocks.length →
      ∃ f, (forksFromTipset ts)[i]? = some f ∧ f.Blocks = ts.Blocks.drop i ∧
        f.Blocks.length = ts.Blocks.length - i ∧ f.Blocks.Sorted seedLE := by
  obtain ⟨hlen, hidx⟩ := forksAux_spec ts.Blocks hs
  refine ⟨hlen, fun i hi => ?_⟩
  obtain ⟨f, hf, hb⟩ := hidx i hi
  refine ⟨f, hf, hb, ?_, ?_⟩
  · rw [hb]; exact List.length_drop i ts.Blocks
  · rw [hb]
    exact List.Pairwise.sublist (List.drop_sublist i ts.Blocks) hs

/-- C3 witness at a concrete sorted two-block tipset. -/
theorem forksFromTipset_suffixes_witness :
    (forksFromTipset (NewTipsetNE blockC1 [blockC2])).length =
      (NewTipsetNE blockC1 [blockC2]).Blocks.length ∧
    ∀ i, i < (NewTipsetNE blockC1 [blockC2]).Blocks.length →
      ∃ f, (forksFromTipset (NewTipsetNE blockC1 [blockC2]))[i]? = some f ∧
        f.Blocks = (NewTipsetNE blockC1 [blockC2]).Blocks.drop i ∧
        f.Blocks.length = (NewTipsetNE blockC1 [blockC2]).Blocks.length - i ∧
        f.Blocks.Sorted seedLE :=
  forksFromTipset_suffixes (NewTipsetNE blockC1 [blockC2]) (by decide)

theorem headBetter_trans (a b c : Tipset) (h1 : headBetter a b) (h2 : headBetter b c) :
    headBetter a c := by
  rcases h1 with h1 | ⟨h1w, h1t⟩ <;> rcases h2 with h2 | ⟨h2w, h2t⟩
  · exact Or.inl (Nat.lt_trans h2 h1)
  · exact Or.inl (h2w ▸ h1)
  · exact Or.inl (h1w ▸ h2)
  · exact Or.inr ⟨h1w.trans h2w, Nat.lt_trans h1t h2t⟩

theorem headStep_cases (cand ts : Tipset) :
    headStep cand ts = cand ∨ (headStep cand ts = ts ∧ headBetter ts cand) := by
  unfold headStep
  split
  · exact Or.inr ⟨rfl, Or.inl ‹_›⟩
  · split
    · split
      · rename_i hbeq hlt
        exact Or.inr ⟨rfl, Or.inr ⟨by simpa using hbeq, hlt⟩⟩
      · exact Or.inl rfl
    · exact Or.inl rfl

theorem headStep_not_better (h ts : Tipset) (hnb : ¬ headBetter ts h) :
    headStep h ts = h := by
  unfold headStep
  split
  · exact absurd (Or.inl ‹_›) hnb
  · split
    · split
      · rename_i hbeq hlt
        exact absurd (Or.inr ⟨by simpa using hbeq, hlt⟩) hnb
      · rfl
    · rfl

theorem headFold_better (h : Tipset) :
    ∀ (l : List Tipset) (c : Tipset),
      (c = h ∨ headBetter c h) →
      (l.foldl headStep c = h ∨ headBetter (l.foldl headStep c) h) := by
  intro l
  induction l with
  | nil => intro c hc; simpa using hc
  | cons ts rest ih =>
    intro c hc
    simp only [List.foldl_cons]
    apply ih
    rcases headStep_cases c ts with heq | ⟨heq, hb⟩
    · rw [heq]; exact hc
    · rw [heq]
      rcases hc with rfl | hc
      · exact Or.inr hb
      · exact Or.inr (headBetter_trans ts c h hb hc)

theorem headFold_unchanged (h : Tipset) (l : List Tipset)
    (hall : ∀ ts ∈ l, ¬ headBetter ts h) : l.foldl headStep h = h := by
  induction l with
  | nil => rfl
  | cons ts rest ih =>
    simp only [List.foldl_cons]
    rw [headStep_not_better h ts (hall ts (List.mem_cons_self ts rest))]
    exact ih (fun t ht => hall t (List.mem_cons_of_mem ts ht))

/-- C2: a `setHead` call either leaves the head unchanged or replaces it by a
strictly better tipset (strictly greater weight, or equal weight and strictly
smaller min ticket); hence the head weight never decreases across rounds,
equal final weight forces a strictly smaller min ticket on change, a round
offering no strictly better candidate leaves the head unchanged, and an empty
round always leaves the head unchanged. -/
theorem setHead_monotone (head : Tipset) (blocks : List Block) :
    (setHeadCandidate head blocks = head ∨ headBetter (setHeadCandidate head blocks) head) ∧
    head.Weight ≤ (setHeadCandidate head blocks).Weight ∧
    ((setHeadCandidate head blocks).Weight = head.Weight →
      setHeadCandidate head blocks = head ∨
        (setHeadCandidate head blocks).MinTicket < head.MinTicket) ∧
    ((∀ ts ∈ allTipsets blocks, ¬ headBetter ts head) →
      setHeadCandidate head blocks = head) ∧
    (∀ ct : ChainTracker, (ChainTracker.setHead ct []).head = ct.head) := by
  have hmain : setHeadCandidate head blocks = head ∨
      headBetter (setHeadCandidate head blocks) head :=
    headFold_better head (allTipsets blocks) head (Or.inl rfl)
  refine ⟨hmain, ?_, ?_, ?_, fun ct => rfl⟩
  · rcases hmain with heq | hb
    · rw [heq]
    · rcases hb with h | ⟨hw, _⟩
      · exact Nat.le_of_lt h
      · rw [hw]
  · intro hweq
    rcases hmain with heq | hb
    · exact Or.inl heq
    · rcases hb with h | ⟨_, ht⟩
      · omega
      · exact Or.inr ht
  · intro hall
    exact headFold_unchanged head (allTipsets blocks) hall

/-- C2 witness: an empty round at a concrete head, discharging the
no-better-candidate hypothesis. -/
theorem setHead_monotone_witness :
    setHeadCandidate parentTsA [] = parentTsA ∧
    parentTsA.Weight ≤ (setHeadCandidate parentTsA []).Weight :=
  ⟨(setHead_monotone parentTsA []).2.2.2.1 (by simp [allTipsets]),
    (setHead_monotone parentTsA []).2.1⟩

/-- C9 counterexample: for `lbp = 2`, the genesis block returned by `makeGen`
has height 0 while its parent tipset (the chained genesis ancestor) also has
height 0 — its height is NOT its parent tipset's height plus one. -/
theorem makeGen_ancestor_height_cex :
    ((makeGen 2 (fun _ => 0) 0).1.map Block.Height) = some 0 ∧
    (((makeGen 2 (fun _ => 0) 0).1.bind Block.Parents).bind Tipset.getHeight?) = some 0 ∧
    ((makeGen 2 (fun _ => 0) 0).1.map Block.Height) ≠
      ((((makeGen 2 (fun _ => 0) 0).1.bind Block.Parents).bind Tipset.getHeight?).map
        (fun ph => ph + 1)) := by
  decide

theorem makeGenLoop_eq (draws : Nat → Nat) (c0 : Nat) :
    ∀ n m, makeGenLoop draws n (genChainTipset draws c0 m) (c0 + m) =
      (genChainTipset draws c0 (m + n), c0 + m + n) := by
  intro n
  induction n with
  | zero => intro m; simp [makeGenLoop]
  | succ k ih =>
    intro m
    have hstep : makeGenLoop draws (k + 1) (genChainTipset draws c0 m) (c0 + m) =
        makeGenLoop draws k (genChainTipset draws c0 (m + 1)) (c0 + (m + 1)) := by
      simp [makeGenLoop, genChainTipset, Nat.add_assoc]
    rw [hstep, ih (m + 1)]
    rw [show m + 1 + k = m + (k + 1) from by omega,
      show c0 + (m + 1) + k = c0 + m + (k + 1) from by omega]

theorem genChain_lookback (draws : Nat → Nat) (c0 : Nat) :
    ∀ n k, k < n → ∀ ts, genChainTipset draws c0 n = some ts →
      ∃ ts', lookbackAux k ts = some ts' ∧ ts'.getHeight? = some 0 := by
  intro n
  induction n with
  | zero => intro k hk; omega
  | succ m ih =>
    intro k hk ts hts
    have hts' : ts = NewTipsetNE (Block.mk (c0 + m) (genChainTipset draws c0 m) (-1) 0
        false 0 (draws (c0 + m)) true) [] := by
      simpa [genChainTipset, eq_comm] using hts
    cases k with
    | zero =>
      refine ⟨ts, rfl, ?_⟩
      rw [hts']
      rfl
    | succ j =>
      have hpar : ts.getParents? = genChainTipset draws c0 m := by
        rw [hts']; rfl
      have hm : j < m := by omega
      cases hcm : genChainTipset draws c0 m with
      | none =>
        cases m with
        | zero => omega
        | succ _ => simp [genChainTipset] at hcm
      | some tsm =>
        obtain ⟨ts', hl, hh⟩ := ih j hm tsm hcm
        refine ⟨ts', ?_, hh⟩
        simp [lookbackAux, hpar, hcm, hl]

/-- C9 (amended): every block produced by `generateBlock` has height equal to
its parent tipset's height plus 1, and every block of the `makeGen` genesis
chain (the root and all `lbp - 1` chained ancestors, reached by the lookback
walk) has height 0 — so the parent-plus-one rule holds for mined blocks, while
the chained genesis ancestors sit at height 0 above height-0 parents. -/
theorem block_height_consistency
    (m : RationalMiner) (rng : Nat → Nat) (parents : Tipset) (lbp counter : Nat)
    (blk : Block) (c' : Nat) (draws : Nat → Nat) (lbp2 : Nat) (gen : Block) (cg : Nat)
    (hgb : generateBlock m rng parents lbp counter = some (blk, c'))
    (hmg : makeGen lbp2 draws 0 = (some gen, cg)) :
    (∃ ph, parents.getHeight? = some ph ∧ blk.Height = ph + 1) ∧
    (gen.Height = 0 ∧ ∀ k, k < lbp2 →
      ∃ ts', lookbackAux k (NewTipsetNE gen []) = some ts' ∧ ts'.getHeight? = some 0) := by
  constructor
  · unfold generateBlock at hgb
    cases h1 : lookbackTipset parents lbp with
    | none => rw [h1] at hgb; simp at hgb
    | some lot =>
    rw [h1] at hgb
    cases h2 : lookbackTipset parents 1 with
    | none => rw [h2] at hgb; simp at hgb
    | some lst =>
    rw [h2] at hgb
    cases h3 : parents.Blocks.head? with
    | none => rw [h3] at hgb; simp at hgb
    | some b0 =>
    rw [h3] at hgb
    simp only [Option.bind_eq_bind, Option.some_bind] at hgb
    cases hnull : b0.Null with
    | false =>
      simp only [hnull] at hgb
      simp at hgb
      cases h5 : parents.getHeight? with
      | none => rw [h5] at hgb; simp at hgb
      | some ph =>
        rw [h5] at hgb
        simp only [Option.some_bind, Option.pure_def, Option.some_inj,
          Prod.mk.injEq] at hgb
        refine ⟨ph, rfl, ?_⟩
        rw [← hgb.1]
        rfl
    | true =>
      simp only [hnull] at hgb
      simp at hgb
      cases h4 : Block.liveParentsGo b0.Parents with
      | none => rw [h4] at hgb; simp at hgb
      | some live =>
        rw [h4] at hgb
        simp only [Option.some_bind] at hgb
        cases h5 : parents.getHeight? with
        | none => rw [h5] at hgb; simp at hgb
        | some ph =>
          rw [h5] at hgb
          simp only [Option.some_bind, Option.pure_def, Option.some_inj,
            Prod.mk.injEq] at hgb
          refine ⟨ph, rfl, ?_⟩
          rw [← hgb.1]
          rfl
  · have hloop : makeGenLoop draws lbp2 none 0 = (genChainTipset draws 0 lbp2, lbp2) := by
      have h := makeGenLoop_eq draws 0 lbp2 0
      simpa [genChainTipset] using h
    unfold makeGen at hmg
    rw [hloop] at hmg
    cases hchain : genChainTipset draws 0 lbp2 with
    | none => rw [hchain] at hmg; simp at hmg
    | some ts =>
      rw [hchain] at hmg
      simp only [Prod.mk.injEq] at hmg
      have hgen : ts.Blocks.head? = some gen := hmg.1
      cases lbp2 with
      | zero => simp [genChainTipset] at hchain
      | succ m2 =>
        have hts : ts = NewTipsetNE (Block.mk (0 + m2) (genChainTipset draws 0 m2) (-1) 0
            false 0 (draws (0 + m2)) true) [] := by
          simpa [genChainTipset, eq_comm] using hchain
        have hgeneq : gen = Block.mk (0 + m2) (genChainTipset draws 0 m2) (-1) 0
            false 0 (draws (0 + m2)) true := by
          rw [hts] at hgen
          simp only [NewTipsetNE, sortBlocks, Tipset.ofSorted, List.insertionSort,
            List.orderedInsert, List.head?_cons, Option.some_inj] at hgen
          exact hgen.symm
        constructor
        · rw [hgeneq]; rfl
        · intro k hk
          have hts2 : genChainTipset draws 0 (m2 + 1) = some (NewTipsetNE gen []) := by
            rw [hgeneq]
            rfl
          exact genChain_lookback draws 0 (m2 + 1) k hk (NewTipsetNE gen []) hts2

/-- C9 amended witness: a concrete `generateBlock` call (height 1 above the
height-0 genesis tipset) and a concrete `makeGen` with `lbp = 2`. -/
theorem block_height_consistency_witness :
    (∃ ph, parentTsA.getHeight? = some ph ∧
      ((Block.mk 10 (some parentTsA) 0 1 false 1 0 false)).Height = ph + 1) ∧
    (((makeGen 2 (fun _ => 0) 0).1.getD genBlockA).Height = 0 ∧ ∀ k, k < 2 →
      ∃ ts', lookbackAux k (NewTipsetNE ((makeGen 2 (fun _ => 0) 0).1.getD genBlockA) []) =
          some ts' ∧ ts'.getHeight? = some 0) :=
  block_height_consistency ⟨⟨1, 1⟩, [], 0, 1⟩ (fun _ => 0) parentTsA 1 10
    (Block.mk 10 (some parentTsA) 0 1 false 1 0 false) 11 (fun _ => 0) 2
    ((makeGen 2 (fun _ => 0) 0).1.getD genBlockA) 2 (by rfl) (by rfl)

/-- C7 counterexample: two runs with the SAME trial-level seed (0) and the
same configuration and ticket function, but fresh `crypto/rand` genesis draws
(0 in one run, 1 in the other — in the source these draws are taken directly
from `crypto/rand` and are NOT derived from the trial seed), produce different
block tables: fixing the trial-level seed does not reproduce the block set. -/
theorem runSim_same_seed_different_blocks :
    (runSim 1 1 1 (fun _ => 0) (fun _ => 0) 0).isSome = true ∧
    (runSim 1 1 1 (fun _ => 1) (fun _ => 0) 0).isSome = true ∧
    (runSim 1 1 1 (fun _ => 0) (fun _ => 0) 0).map
        (fun st => st.ct.allBlocks.map (fun p => p.2.Seed)) ≠
      (runSim 1 1 1 (fun _ => 1) (fun _ => 0) 0).map
        (fun st => st.ct.allBlocks.map (fun p => p.2.Seed)) := by
  decide

/-- C7 (amended): a trial's outcome is a function of the configuration, the
`crypto/rand` genesis draws and the ticket function alone; the trial-level
seed drawn at trial start never influences the outcome, because
`generateTicket` re-seeds the shared generator from `minTicket + minerID`
before every draw and the genesis seeds are taken directly from
`crypto/rand`.  Any two trial-level seeds therefore give identical runs, while
fixing the trial-level seed alone fixes nothing. -/
theorem runSim_trialSeed_irrelevant (tm rn lbp : Nat) (draws rng : Nat → Nat)
    (s1 s2 : Nat) : runSim tm rn lbp draws rng s1 = runSim tm rn lbp draws rng s2 := rfl

/-- Full characterization of the `lbp = 1, rounds = 1, miners = 1` trial: the
genesis draw `draws 0` is below `bigOlNum * totalMiners` (guaranteed by
`randInt`) and every `Int63n(bigOlNum)` ticket is below `bigOlNum`, so the one
miner of power `1.0` always wins, emitting a single non-null block over the
genesis tipset. -/
theorem runSim_single_miner (draws rng : Nat → Nat) (trialSeed : Nat)
    (hdraws : draws 0 < bigOlNum) (hrng : ∀ s, rng s < bigOlNum) :
    runSim 1 1 1 draws rng trialSeed =
      some { counter := 2,
             ct := { liveBlocksByHeight :=
                       [(0, [Block.mk 0 none (-1) 0 false 0 (draws 0) true])],
                     allBlocks := [(0, Block.mk 0 none (-1) 0 false 0 (draws 0) true)],
                     maxHeight := 0,
                     head := NewTipsetNE (Block.mk 0 none (-1) 0 false 0 (draws 0) true) [] },
             miners := [{ Power := ⟨1, 1⟩, PrivateForks := [], ID := 0, TotalMiners := 1 }],
             blocks := [Block.mk 1
               (some (NewTipsetNE (Block.mk 0 none (-1) 0 false 0 (draws 0) true) []))
               0 1 false 1 (rng (draws 0)) false] } := by
  have h64 : draws 0 < 2 ^ 64 := lt_trans hdraws (by norm_num [bigOlNum])
  have hmod : (draws 0 + 0) % 2 ^ 64 = draws 0 := by
    rw [Nat.add_zero]
    exact Nat.mod_eq_of_lt h64
  have hmodLit : draws 0 % 18446744073709551616 = draws 0 :=
    Nat.mod_eq_of_lt (lt_trans hdraws (by norm_num [bigOlNum]))
  have hw : isWinningTicket (rng (draws 0)) ⟨1, 1⟩ = true := by
    have h := hrng (draws 0)
    simp only [isWinningTicket, bigOlNum] at *
    simp
    omega
  simp only [runSim, makeGen, makeGenLoop, runSimLoop, runRound, ChainTracker.setHead,
    setHeadCandidate, allTipsets, headStep, mineAll, Mine, ConsiderAllForks, mineLoop,
    generateBlock, generateTicket, lookbackTipset, lookbackAux, Tipset.getParents?,
    Tipset.getHeight?, forksFromTipset, forksAux, NewTipsetNE, sortBlocks,
    Tipset.ofSorted, stringifyBlocks, mapInsert, heightConsistent, List.insertionSort,
    List.orderedInsert, List.range, List.map, List.filter, List.foldl, List.all,
    List.head?, hmod, hw, ite_self, lt_irrefl]
  simp [hmodLit, hw, Block.Null, Block.Seed, Block.ParentWeight, Block.Height, Block.Nonce]

/-- C6: for `lookbackParameter = 1, rounds = 1, miners = 1` (so power `1.0`),
whatever values the genesis draw and the tickets take within their ranges
(`randInt(bigOlNum * totalMiners)` and `Int63n(bigOlNum)`), round 0 always
emits exactly one non-null block, whose parent tipset is the genesis tipset
(single owner `-1`, height-0 block, weight 1) and whose parent weight is 1: a
miner of power `1.0` always draws a winning ticket. -/
theorem scenario_single_miner_always_wins (draws rng : Nat → Nat) (trialSeed : Nat)
    (hdraws : draws 0 < bigOlNum) (hrng : ∀ s, rng s < bigOlNum) :
    ∃ st, runSim 1 1 1 draws rng trialSeed = some st ∧
      ∃ b, st.blocks = [b] ∧ b.Null = false ∧ b.ParentWeight = 1 ∧ b.Height = 1 ∧
        ∃ pt, b.Parents = some pt ∧ pt.Blocks.map Block.Owner = [-1] ∧
          pt.Blocks.map Block.Height = [0] ∧ pt.Weight = 1 := by
  refine ⟨_, runSim_single_miner draws rng trialSeed hdraws hrng, ?_⟩
  refine ⟨_, rfl, rfl, rfl, rfl, ?_⟩
  refine ⟨_, rfl, ?_, ?_, ?_⟩
  all_goals
    simp [NewTipsetNE, sortBlocks, List.insertionSort, List.orderedInsert,
      Tipset.ofSorted, Block.Owner, Block.Height, Block.Null, Block.ParentWeight]

/-- C6 witness at the all-zero draw and ticket functions. -/
theorem scenario_single_miner_always_wins_witness :
    ∃ st, runSim 1 1 1 (fun _ => 0) (fun _ => 0) 0 = some st ∧
      ∃ b, st.blocks = [b] ∧ b.Null = false ∧ b.ParentWeight = 1 ∧ b.Height = 1 ∧
        ∃ pt, b.Parents = some pt ∧ pt.Blocks.map Block.Owner = [-1] ∧
          pt.Blocks.map Block.Height = [0] ∧ pt.Weight = 1 :=
  scenario_single_miner_always_wins (fun _ => 0) (fun _ => 0) 0 (by decide)
    (fun _ => by norm_num [bigOlNum])

theorem mapGet_eq_none {κ β : Type} [DecidableEq κ] :
    ∀ (l : List (κ × β)) (k : κ), k ∉ l.map Prod.fst → mapGet l k = none := by
  intro l
  induction l with
  | nil => intro k _; rfl
  | cons p rest ih =>
    intro k h
    obtain ⟨k0, v0⟩ := p
    simp only [List.map_cons, List.mem_cons, not_or] at h
    rw [mapGet, if_neg (fun he => h.1 he.symm)]
    exact ih k h.2

theorem mapGet_mapInsert_self {κ β : Type} [DecidableEq κ] :
    ∀ (l : List (κ × β)) (k : κ) (v : β), mapGet (mapInsert l k v) k = some v := by
  intro l
  induction l with
  | nil => intro k v; simp [mapInsert, mapGet]
  | cons p rest ih =>
    intro k v
    obtain ⟨k0, v0⟩ := p
    by_cases h : k0 = k
    · simp [mapInsert, h, mapGet]
    · simp only [mapInsert, if_neg h]
      rw [mapGet, if_neg h]
      exact ih k v

theorem mapGet_mapInsert_ne {κ β : Type} [DecidableEq κ] :
    ∀ (l : List (κ × β)) (k k' : κ) (v : β), k ≠ k' →
      mapGet (mapInsert l k v) k' = mapGet l k' := by
  intro l
  induction l with
  | nil => intro k k' v h; simp [mapInsert, mapGet, h]
  | cons p rest ih =>
    intro k k' v h
    obtain ⟨k0, v0⟩ := p
    by_cases h0 : k0 = k
    · subst h0
      simp only [mapInsert, if_pos rfl, mapGet]
      rw [if_neg h, if_neg h]
    · simp only [mapInsert, if_neg h0, mapGet]
      by_cases h1 : k0 = k'
      · rw [if_pos h1, if_pos h1]
      · rw [if_neg h1, if_neg h1]
        exact ih k k' v h

theorem mapGet_mapDelete_ne {κ β : Type} [DecidableEq κ] :
    ∀ (l : List (κ × β)) (k k' : κ), k ≠ k' →
      mapGet (mapDelete l k) k' = mapGet l k' := by
  intro l
  induction l with
  | nil => intro k k' h; rfl
  | cons p rest ih =>
    intro k k' h
    obtain ⟨k0, v0⟩ := p
    by_cases h0 : k0 = k
    · subst h0
      simp [mapDelete, mapGet, h]
    · simp only [mapDelete, if_neg h0, mapGet]
      by_cases h1 : k0 = k'
      · rw [if_pos h1, if_pos h1]
      · rw [if_neg h1, if_neg h1]
        exact ih k k' h

theorem mapGet_mapDelete_self {κ β : Type} [DecidableEq κ] :
    ∀ (l : List (κ × β)) (k : κ), (l.map Prod.fst).Nodup →
      mapGet (mapDelete l k) k = none := by
  intro l
  induction l with
  | nil => intro k _; rfl
  | cons p rest ih =>
    intro k hnd
    obtain ⟨k0, v0⟩ := p
    simp only [List.map_cons, List.nodup_cons] at hnd
    by_cases h0 : k0 = k
    · subst h0
      rw [mapDelete, if_pos rfl]
      exact mapGet_eq_none rest k0 hnd.1
    · rw [mapDelete, if_neg h0, mapGet, if_neg h0]
      exact ih k hnd.2

theorem mapDelete_keys_sublist {κ β : Type} [DecidableEq κ] :
    ∀ (l : List (κ × β)) (k : κ),
      ((mapDelete l k).map Prod.fst).Sublist (l.map Prod.fst) := by
  intro l
  induction l with
  | nil => intro k; simp [mapDelete]
  | cons p rest ih =>
    intro k
    obtain ⟨k0, v0⟩ := p
    by_cases h0 : k0 = k
    · rw [mapDelete, if_pos h0]
      exact (List.sublist_cons_self k0 (rest.map Prod.fst))
    · rw [mapDelete, if_neg h0]
      simp only [List.map_cons]
      exact List.Sublist.cons₂ k0 (ih k)

theorem mapInsert_keys_mem {κ β : Type} [DecidableEq κ] :
    ∀ (l : List (κ × β)) (k k' : κ) (v : β),
      (k' ∈ (mapInsert l k v).map Prod.fst ↔ k' ∈ l.map Prod.fst ∨ k' = k) := by
  intro l
  induction l with
  | nil => intro k k' v; simp [mapInsert]
  | cons p rest ih =>
    intro k k' v
    obtain ⟨k0, v0⟩ := p
    by_cases h0 : k0 = k
    · subst h0
      simp [mapInsert]
      tauto
    · rw [mapInsert, if_neg h0]
      simp only [List.map_cons, List.mem_cons]
      rw [ih]
      tauto

theorem mapInsert_keys_nodup {κ β : Type} [DecidableEq κ] :
    ∀ (l : List (κ × β)) (k : κ) (v : β), (l.map Prod.fst).Nodup →
      ((mapInsert l k v).map Prod.fst).Nodup := by
  intro l
  induction l with
  | nil => intro k v _; simp [mapInsert]
  | cons p rest ih =>
    intro k v hnd
    obtain ⟨k0, v0⟩ := p
    simp only [List.map_cons, List.nodup_cons] at hnd
    by_cases h0 : k0 = k
    · subst h0
      rw [mapInsert, if_pos rfl]
      simp only [List.map_cons, List.nodup_cons]
      exact hnd
    · rw [mapInsert, if_neg h0]
      simp only [List.map_cons, List.nodup_cons]
      refine ⟨?_, ih k v hnd.2⟩
      intro hmem
      rcases (mapInsert_keys_mem rest k k0 v).mp hmem with h | h
      · exact hnd.1 h
      · exact h0 h

theorem mapInsert_prop {κ β : Type} [DecidableEq κ] (P : κ × β → Prop) :
    ∀ (l : List (κ × β)) (k : κ) (v : β), (∀ p ∈ l, P p) → P (k, v) →
      ∀ p ∈ mapInsert l k v, P p := by
  intro l
  induction l with
  | nil => intro k v _ hkv p hp; simp [mapInsert] at hp; rw [hp]; exact hkv
  | cons q rest ih =>
    intro k v hl hkv p hp
    obtain ⟨k0, v0⟩ := q
    by_cases h0 : k0 = k
    · rw [mapInsert, if_pos h0] at hp
      rcases List.mem_cons.mp hp with h | h
      · rw [h]; exact hkv
      · exact hl p (List.mem_cons_of_mem _ h)
    · rw [mapInsert, if_neg h0] at hp
      rcases List.mem_cons.mp hp with h | h
      · rw [h]; exact hl (k0, v0) (List.mem_cons_self _ _)
      · exact ih k v (fun q hq => hl q (List.mem_cons_of_mem _ hq)) hkv p h

theorem considerAllForks_wf (pf : List (String × Tipset)) (atsforks : List (List Tipset))
    (hwf : ∀ p ∈ pf, p.1 = p.2.Name) :
    ∀ p ∈ ConsiderAllForks pf atsforks, p.1 = p.2.Name := by
  unfold ConsiderAllForks
  induction atsforks generalizing pf with
  | nil => exact hwf
  | cons forks rest ih =>
    simp only [List.foldl_cons]
    apply ih
    clear ih
    induction forks generalizing pf with
    | nil => exact hwf
    | cons ts more ih2 =>
      simp only [List.foldl_cons]
      apply ih2
      exact mapInsert_prop _ pf ts.Name ts hwf rfl

theorem considerAllForks_nodup (pf : List (String × Tipset)) (atsforks : List (List Tipset))
    (hnd : (pf.map Prod.fst).Nodup) :
    ((ConsiderAllForks pf atsforks).map Prod.fst).Nodup := by
  unfold ConsiderAllForks
  induction atsforks generalizing pf with
  | nil => exact hnd
  | cons forks rest ih =>
    simp only [List.foldl_cons]
    apply ih
    clear ih
    induction forks generalizing pf with
    | nil => exact hnd
    | cons ts more ih2 =>
      simp only [List.foldl_cons]
      apply ih2
      exact mapInsert_keys_nodup pf ts.Name ts hnd

/-- Shape of a successful `generateBlock`: the block points at the given
parents, takes the fresh nonce, and its null flag is the lookback-election
test — independent of the nonce counter. -/
theorem generateBlock_shape (m : RationalMiner) (rng : Nat → Nat) (parents : Tipset)
    (lbp counter : Nat) (blk : Block) (c' : Nat)
    (h : generateBlock m rng parents lbp counter = some (blk, c')) :
    blk.Parents = some parents ∧ blk.Nonce = counter ∧ c' = counter + 1 ∧
      ∃ lot, lookbackTipset parents lbp = some lot ∧
        blk.Null = !(isWinningTicket (generateTicket rng m.ID lot.MinTicket) m.Power) := by
  unfold generateBlock at h
  cases h1 : lookbackTipset parents lbp with
  | none => rw [h1] at h; simp at h
  | some lot =>
  rw [h1] at h
  cases h2 : lookbackTipset parents 1 with
  | none => rw [h2] at h; simp at h
  | some lst =>
  rw [h2] at h
  cases h3 : parents.Blocks.head? with
  | none => rw [h3] at h; simp at h
  | some b0 =>
  rw [h3] at h
  simp only [Option.bind_eq_bind, Option.some_bind] at h
  cases hnull : b0.Null with
  | false =>
    simp only [hnull] at h
    simp at h
    cases h5 : parents.getHeight? with
    | none => rw [h5] at h; simp at h
    | some ph =>
      rw [h5] at h
      simp only [Option.some_bind, Option.pure_def, Option.some_inj, Prod.mk.injEq] at h
      refine ⟨?_, ?_, h.2.symm, lot, rfl, ?_⟩ <;> rw [← h.1] <;> rfl
  | true =>
    simp only [hnull] at h
    simp at h
    cases h4 : Block.liveParentsGo b0.Parents with
    | none => rw [h4] at h; simp at h
    | some live =>
      rw [h4] at h
      simp only [Option.some_bind] at h
      cases h5 : parents.getHeight? with
      | none => rw [h5] at h; simp at h
      | some ph =>
        rw [h5] at h
        simp only [Option.some_bind, Option.pure_def, Option.some_inj,
          Prod.mk.injEq] at h
        refine ⟨?_, ?_, h.2.symm, lot, rfl, ?_⟩ <;> rw [← h.1] <;> rfl

theorem mineLoop_best_none_back (m : RationalMiner) (rng : Nat → Nat) (lbp : Nat) :
    ∀ (l : List (String × Tipset)) (acc acc' : MineAcc),
      mineLoop m rng lbp l acc = some acc' → acc'.bestBlock = none →
      acc.bestBlock = none := by
  intro l
  induction l with
  | nil =>
    intro acc acc' h hb
    simp only [mineLoop, Option.some_inj] at h
    rw [h]; exact hb
  | cons q rest ih =>
    intro acc acc' h hb
    obtain ⟨k, ts⟩ := q
    simp only [mineLoop] at h
    cases hgb : generateBlock m rng ts lbp acc.counter with
    | none => rw [hgb] at h; simp at h
    | some bc =>
      obtain ⟨blk, c'⟩ := bc
      rw [hgb] at h
      simp only [Option.bind_eq_bind, Option.some_bind] at h
      split at h
      · have hx := ih _ _ h hb
        simp at hx
      · split at h
        · have hx := ih _ _ h hb
          simpa using hx
        · have hx := ih _ _ h hb
          simpa using hx

theorem mineLoop_null_mono (m : RationalMiner) (rng : Nat → Nat) (lbp : Nat) :
    ∀ (l : List (String × Tipset)) (acc acc' : MineAcc),
      mineLoop m rng lbp l acc = some acc' →
      ∀ b ∈ acc.nullBlocks, b ∈ acc'.nullBlocks := by
  intro l
  induction l with
  | nil =>
    intro acc acc' h b hb
    simp only [mineLoop, Option.some_inj] at h
    rw [← h]; exact hb
  | cons q rest ih =>
    intro acc acc' h b hb
    obtain ⟨k, ts⟩ := q
    simp only [mineLoop] at h
    cases hgb : generateBlock m rng ts lbp acc.counter with
    | none => rw [hgb] at h; simp at h
    | some bc =>
      obtain ⟨blk, c'⟩ := bc
      rw [hgb] at h
      simp only [Option.bind_eq_bind, Option.some_bind] at h
      split at h
      · exact ih _ _ h b hb
      · split at h
        · refine ih _ _ h b ?_
          simp only [List.mem_append]
          exact Or.inl hb
        · exact ih _ _ h b hb

theorem mineLoop_nullBlocks_src (m : RationalMiner) (rng : Nat → Nat) (lbp : Nat) :
    ∀ (l : List (String × Tipset)) (acc acc' : MineAcc),
      mineLoop m rng lbp l acc = some acc' →
      ∀ nblk ∈ acc'.nullBlocks, nblk ∈ acc.nullBlocks ∨
        (nblk.Null = true ∧ ∃ p ∈ l, nblk.Parents = some p.2) := by
  intro l
  induction l with
  | nil =>
    intro acc acc' h nblk hn
    simp only [mineLoop, Option.some_inj] at h
    rw [← h] at hn
    exact Or.inl hn
  | cons q rest ih =>
    intro acc acc' h nblk hn
    obtain ⟨k, ts⟩ := q
    simp only [mineLoop] at h
    cases hgb : generateBlock m rng ts lbp acc.counter with
    | none => rw [hgb] at h; simp at h
    | some bc =>
      obtain ⟨blk, c'⟩ := bc
      rw [hgb] at h
      simp only [Option.bind_eq_bind, Option.some_bind] at h
      split at h
      · rcases ih _ _ h nblk hn with hm | ⟨hnl, p, hp, hpar⟩
        · simp at hm
          exact Or.inl hm
        · exact Or.inr ⟨hnl, p, List.mem_cons_of_mem _ hp, hpar⟩
      · split at h
        · rename_i hc2
          rcases ih _ _ h nblk hn with hm | ⟨hnl, p, hp, hpar⟩
          · simp at hm
            rcases hm with hm | hm
            · exact Or.inl hm
            · subst hm
              refine Or.inr ⟨?_, (k, ts), List.mem_cons_self _ _,
                (generateBlock_shape m rng ts lbp acc.counter nblk c' hgb).1⟩
              simp only [Bool.and_eq_true] at hc2
              exact hc2.1
          · exact Or.inr ⟨hnl, p, List.mem_cons_of_mem _ hp, hpar⟩
        · rcases ih _ _ h nblk hn with hm | ⟨hnl, p, hp, hpar⟩
          · simp at hm
            exact Or.inl hm
          · exact Or.inr ⟨hnl, p, List.mem_cons_of_mem _ hp, hpar⟩

theorem mineLoop_collects_nulls (m : RationalMiner) (rng : Nat → Nat) (lbp : Nat) :
    ∀ (l : List (String × Tipset)) (acc acc' : MineAcc),
      mineLoop m rng lbp l acc = some acc' → acc'.bestBlock = none →
      ∀ p ∈ l, ∃ blk c0 c1, generateBlock m rng p.2 lbp c0 = some (blk, c1) ∧
        (blk.Null = true → blk ∈ acc'.nullBlocks) := by
  intro l
  induction l with
  | nil => intro acc acc' h hb p hp; simp at hp
  | cons q rest ih =>
    intro acc acc' h hb p hp
    obtain ⟨k, ts⟩ := q
    simp only [mineLoop] at h
    cases hgb : generateBlock m rng ts lbp acc.counter with
    | none => rw [hgb] at h; simp at h
    | some bc =>
      obtain ⟨blk, c'⟩ := bc
      rw [hgb] at h
      simp only [Option.bind_eq_bind, Option.some_bind] at h
      rcases List.mem_cons.mp hp with hphead | hptail
      · subst hphead
        refine ⟨blk, acc.counter, c', hgb, ?_⟩
        intro hnl
        split at h
        · rename_i hc1
          simp only [Bool.and_eq_true, Bool.not_eq_true'] at hc1
          rw [hnl] at hc1
          simp at hc1
        · split at h
          · exact mineLoop_null_mono m rng lbp rest _ _ h blk (by simp)
          · rename_i hc2
            have haccb0 := mineLoop_best_none_back m rng lbp rest _ _ h hb
            have haccb : acc.bestBlock = none := by simpa using haccb0
            rw [hnl, haccb] at hc2
            simp at hc2
      · split at h
        · exact ih _ _ h hb p hptail
        · split at h
          · exact ih _ _ h hb p hptail
          · exact ih _ _ h hb p hptail

theorem mapDelete_keys_mem {κ β : Type} [DecidableEq κ] :
    ∀ (l : List (κ × β)) (k k' : κ), k' ≠ k → k' ∈ l.map Prod.fst →
      k' ∈ (mapDelete l k).map Prod.fst := by
  intro l
  induction l with
  | nil => intro k k' _ h; simp at h
  | cons p rest ih =>
    intro k k' hne h
    obtain ⟨k0, v0⟩ := p
    simp only [List.map_cons, List.mem_cons] at h
    by_cases h0 : k0 = k
    · subst h0
      rw [mapDelete, if_pos rfl]
      rcases h with h | h
      · exact absurd h hne
      · exact h
    · rw [mapDelete, if_neg h0]
      simp only [List.map_cons, List.mem_cons]
      rcases h with h | h
      · exact Or.inl h
      · exact Or.inr (ih k k' hne h)

theorem nullTipsetUpdate_cons (pf : List (String × Tipset)) (b0 : Block)
    (rest : List Block) :
    nullTipsetUpdate pf (b0 :: rest) = nullTipsetUpdate (nullStep pf b0) rest := rfl

theorem nullTipsetUpdate_get_preserved :
    ∀ (L : List Block) (pf : List (String × Tipset)) (k : String),
      (∀ b ∈ L, (NewTipsetNE b []).Name ≠ k) →
      (∀ b ∈ L, b.parentName?.getD "" ≠ k) →
      mapGet (nullTipsetUpdate pf L) k = mapGet pf k := by
  intro L
  induction L with
  | nil => intro pf k _ _; rfl
  | cons b0 rest ih =>
    intro pf k hnm hpn
    rw [nullTipsetUpdate_cons]
    rw [ih (nullStep pf b0) k (fun b hb => hnm b (List.mem_cons_of_mem _ hb))
      (fun b hb => hpn b (List.mem_cons_of_mem _ hb))]
    unfold nullStep
    rw [mapGet_mapInsert_ne _ _ _ _ (hnm b0 (List.mem_cons_self _ _))]
    exact mapGet_mapDelete_ne _ _ _ (hpn b0 (List.mem_cons_self _ _))

theorem nullStep_keys_nodup (pf : List (String × Tipset)) (b0 : Block)
    (hnd : (pf.map Prod.fst).Nodup) : ((nullStep pf b0).map Prod.fst).Nodup := by
  unfold nullStep
  exact mapInsert_keys_nodup _ _ _ (List.Nodup.sublist (mapDelete_keys_sublist pf _) hnd)

theorem nullStep_keys_mem (pf : List (String × Tipset)) (b0 b : Block)
    (hb : b.parentName?.getD "" ∈ pf.map Prod.fst)
    (hne : b.parentName?.getD "" ≠ b0.parentName?.getD "") :
    b.parentName?.getD "" ∈ (nullStep pf b0).map Prod.fst := by
  unfold nullStep
  rw [mapInsert_keys_mem]
  exact Or.inl (mapDelete_keys_mem pf _ _ hne hb)

theorem nullStep_keys_not_mem (pf : List (String × Tipset)) (b0 b : Block)
    (hb : (NewTipsetNE b []).Name ∉ pf.map Prod.fst)
    (hne : (NewTipsetNE b []).Name ≠ (NewTipsetNE b0 []).Name) :
    (NewTipsetNE b []).Name ∉ (nullStep pf b0).map Prod.fst := by
  unfold nullStep
  rw [mapInsert_keys_mem]
  rintro (h | h)
  · exact hb ((mapDelete_keys_sublist pf _).subset h)
  · exact hne h

theorem nullTipsetUpdate_get :
    ∀ (L : List Block) (pf : List (String × Tipset)),
      (pf.map Prod.fst).Nodup →
      (∀ b ∈ L, b.parentName?.getD "" ∈ pf.map Prod.fst) →
      (∀ b ∈ L, (NewTipsetNE b []).Name ∉ pf.map Prod.fst) →
      (L.map (fun b => (NewTipsetNE b []).Name)).Nodup →
      (L.map (fun b => b.parentName?.getD "")).Nodup →
      ∀ b ∈ L, mapGet (nullTipsetUpdate pf L) (b.parentName?.getD "") = none ∧
        mapGet (nullTipsetUpdate pf L) ((NewTipsetNE b []).Name) =
          some (NewTipsetNE b []) := by
  intro L
  induction L with
  | nil => intro pf _ _ _ _ _ b hb; simp at hb
  | cons b0 rest ih =>
    intro pf hnd hpn hnm hnmnd hpnnd b hb
    simp only [List.map_cons, List.nodup_cons] at hnmnd hpnnd
    have hpnb0 : b0.parentName?.getD "" ∈ pf.map Prod.fst :=
      hpn b0 (List.mem_cons_self _ _)
    have hnmb0 : (NewTipsetNE b0 []).Name ∉ pf.map Prod.fst :=
      hnm b0 (List.mem_cons_self _ _)
    rcases List.mem_cons.mp hb with rfl | hbr
    · rw [nullTipsetUpdate_cons]
      have harg1 : ∀ x ∈ rest, (NewTipsetNE x []).Name ≠ b.parentName?.getD "" := by
        intro x hx he
        refine hnm x (List.mem_cons_of_mem _ hx) ?_
        rw [he]
        exact hpnb0
      have harg2 : ∀ x ∈ rest, x.parentName?.getD "" ≠ b.parentName?.getD "" := by
        intro x hx he
        refine hpnnd.1 ?_
        rw [← he]
        exact List.mem_map_of_mem (fun y => y.parentName?.getD "") hx
      have harg3 : ∀ x ∈ rest, (NewTipsetNE x []).Name ≠ (NewTipsetNE b []).Name := by
        intro x hx he
        refine hnmnd.1 ?_
        rw [← he]
        exact List.mem_map_of_mem (fun y => (NewTipsetNE y []).Name) hx
      have harg4 : ∀ x ∈ rest, x.parentName?.getD "" ≠ (NewTipsetNE b []).Name := by
        intro x hx he
        refine hnmb0 ?_
        rw [← he]
        exact hpn x (List.mem_cons_of_mem _ hx)
      have hne0 : (NewTipsetNE b []).Name ≠ b.parentName?.getD "" := by
        intro he
        refine hnmb0 ?_
        rw [he]
        exact hpnb0
      constructor
      · rw [nullTipsetUpdate_get_preserved rest (nullStep pf b) _ harg1 harg2]
        unfold nullStep
        rw [mapGet_mapInsert_ne _ _ _ _ hne0]
        exact mapGet_mapDelete_self pf _ hnd
      · rw [nullTipsetUpdate_get_preserved rest (nullStep pf b) _ harg3 harg4]
        unfold nullStep
        exact mapGet_mapInsert_self _ _ _
    · rw [nullTipsetUpdate_cons]
      refine ih (nullStep pf b0) (nullStep_keys_nodup pf b0 hnd) ?_ ?_ hnmnd.2 hpnnd.2
        b hbr
      · intro x hx
        refine nullStep_keys_mem pf b0 x (hpn x (List.mem_cons_of_mem _ hx)) ?_
        intro he
        refine hpnnd.1 ?_
        rw [← he]
        exact List.mem_map_of_mem (fun y => y.parentName?.getD "") hx
      · intro x hx
        refine nullStep_keys_not_mem pf b0 x (hnm x (List.mem_cons_of_mem _ hx)) ?_
        intro he
        refine hnmnd.1 ?_
        rw [← he]
        exact List.mem_map_of_mem (fun y => (NewTipsetNE y []).Name) hx

theorem Mine_eq (m : RationalMiner) (rng : Nat → Nat) (lbp : Nat)
    (atsforks : List (List Tipset)) (counter : Nat) (ctAll : List (Nat × Block))
    (acc : MineAcc)
    (hloop : mineLoop m rng lbp (ConsiderAllForks m.PrivateForks atsforks)
      ⟨[], 0, none, counter, ctAll⟩ = some acc) :
    Mine m rng lbp atsforks counter ctAll = some (match acc.bestBlock with
      | some b =>
        (⟨some b, { m with PrivateForks := [] }, acc.counter, acc.allBlocks⟩ : MineResult)
      | none =>
        ⟨none, { m with
            PrivateForks :=
              nullTipsetUpdate (ConsiderAllForks m.PrivateForks atsforks)
                acc.nullBlocks },
          acc.counter, acc.allBlocks⟩) := by
  simp only [Mine]
  rw [hloop]
  simp only [Option.bind_eq_bind, Option.some_bind]
  cases hb : acc.bestBlock with
  | some b => rfl
  | none => rfl

/-- C5: after a `Mine` call in a well-formed state — fork-map keys are the
tipset names with no duplicates, and the null candidates carry fresh names
(distinct from each other and from the fork keys) and distinct parent names,
as the global unique-nonce counter guarantees in every run — (a) if a winning
block was produced, the miner's private forks are wiped empty; (b) if no
winning block was produced, every fork entry whose candidate is null has that
candidate recorded, and every recorded null candidate is a losing block whose
source fork entry is removed from the private forks and replaced by an entry
holding the null block's own single-block tipset, keyed by that tipset's
name. -/
theorem mine_privateForks_post
    (m : RationalMiner) (rng : Nat → Nat) (lbp : Nat) (atsforks : List (List Tipset))
    (counter : Nat) (ctAll : List (Nat × Block)) (res : MineResult) (acc : MineAcc)
    (hwf : ∀ p ∈ m.PrivateForks, p.1 = p.2.Name)
    (hnd : (m.PrivateForks.map Prod.fst).Nodup)
    (hloop : mineLoop m rng lbp (ConsiderAllForks m.PrivateForks atsforks)
      ⟨[], 0, none, counter, ctAll⟩ = some acc)
    (hrun : Mine m rng lbp atsforks counter ctAll = some res)
    (hfnd : (acc.nullBlocks.map (fun b => (NewTipsetNE b []).Name)).Nodup)
    (hfnew : ∀ b ∈ acc.nullBlocks, (NewTipsetNE b []).Name ∉
      (ConsiderAllForks m.PrivateForks atsforks).map Prod.fst)
    (hpnd : (acc.nullBlocks.map (fun b => b.parentName?.getD "")).Nodup) :
    (∀ b, res.best = some b → res.miner.PrivateForks = []) ∧
    (res.best = none →
      (∀ p ∈ ConsiderAllForks m.PrivateForks atsforks,
        ∃ blk c0 c1, generateBlock m rng p.2 lbp c0 = some (blk, c1) ∧
          (blk.Null = true → blk ∈ acc.nullBlocks)) ∧
      (∀ nblk ∈ acc.nullBlocks, nblk.Null = true ∧
        mapGet res.miner.PrivateForks (nblk.parentName?.getD "") = none ∧
        mapGet res.miner.PrivateForks ((NewTipsetNE nblk []).Name) =
          some (NewTipsetNE nblk []))) := by
  have hwf1 := considerAllForks_wf m.PrivateForks atsforks hwf
  have hnd1 := considerAllForks_nodup m.PrivateForks atsforks hnd
  have hres : res = (match acc.bestBlock with
      | some b =>
        (⟨some b, { m with PrivateForks := [] }, acc.counter, acc.allBlocks⟩ : MineResult)
      | none =>
        ⟨none, { m with
            PrivateForks :=
              nullTipsetUpdate (ConsiderAllForks m.PrivateForks atsforks)
                acc.nullBlocks },
          acc.counter, acc.allBlocks⟩) := by
    have h2 := Mine_eq m rng lbp atsforks counter ctAll acc hloop
    rw [hrun] at h2
    exact Option.some_inj.mp h2
  cases hbest : acc.bestBlock with
  | some b =>
    rw [hbest] at hres
    constructor
    · intro b' _
      rw [hres]
    · intro hnone
      rw [hres] at hnone
      simp at hnone
  | none =>
    rw [hbest] at hres
    constructor
    · intro b' hb'
      rw [hres] at hb'
      simp at hb'
    · intro _
      have hsrc := mineLoop_nullBlocks_src m rng lbp _ _ _ hloop
      have hpnmem : ∀ nblk ∈ acc.nullBlocks, nblk.parentName?.getD "" ∈
          (ConsiderAllForks m.PrivateForks atsforks).map Prod.fst := by
        intro nblk hn
        rcases hsrc nblk hn with hm | ⟨_, p, hp, hpar⟩
        · simp at hm
        · have heq : nblk.parentName?.getD "" = p.2.Name := by
            simp [Block.parentName?, hpar]
          rw [heq, ← hwf1 p hp]
          exact List.mem_map_of_mem Prod.fst hp
      constructor
      · intro p hp
        exact mineLoop_collects_nulls m rng lbp _ _ _ hloop hbest p hp
      · intro nblk hn
        have hnl : nblk.Null = true := by
          rcases hsrc nblk hn with hm | ⟨hnl, _⟩
          · simp at hm
          · exact hnl
        refine ⟨hnl, ?_, ?_⟩
        · rw [hres]
          exact (nullTipsetUpdate_get acc.nullBlocks _ hnd1 hpnmem hfnew hfnd hpnd
            nblk hn).1
        · rw [hres]
          exact (nullTipsetUpdate_get acc.nullBlocks _ hnd1 hpnmem hfnew hfnd hpnd
            nblk hn).2

/-- C5 witness: a concrete no-winner `Mine` call (power 0, one fork). -/
theorem mine_privateForks_post_witness :
    (∀ b, c5Res.best = some b → c5Res.miner.PrivateForks = []) ∧
    (c5Res.best = none →
      (∀ p ∈ ConsiderAllForks c5Miner.PrivateForks [],
        ∃ blk c0 c1, generateBlock c5Miner (fun _ => 0) p.2 1 c0 = some (blk, c1) ∧
          (blk.Null = true → blk ∈ c5Acc.nullBlocks)) ∧
      (∀ nblk ∈ c5Acc.nullBlocks, nblk.Null = true ∧
        mapGet c5Res.miner.PrivateForks (nblk.parentName?.getD "") = none ∧
        mapGet c5Res.miner.PrivateForks ((NewTipsetNE nblk []).Name) =
          some (NewTipsetNE nblk []))) :=
  mine_privateForks_post c5Miner (fun _ => 0) 1 [] 5 [] c5Res c5Acc
    (by decide) (by decide) rfl rfl (by decide) (by decide) (by decide)

end LongSim
